import Mathlib

set_option autoImplicit false

/-
Verification of the visibility/sanitization pipeline and the live-query
reference-counted subscription cache of the answeroverflow rewrite.

The definitions below are shallow embeddings of the TypeScript source:
  - packages/database/src/visibility/{compute,anonymize,transform,types}.ts
    and the convex-side copy (shared visibility module),
  - packages/database/src/database.ts (LiveData, watchResolver,
    watchQueryToLiveData and the ActiveWatch registry).
TypeScript booleans become Bool, nullable values become Option, JS Map
reads become Option-valued lookup functions, JS Map construction with
insertion order becomes association lists, and object identity of
LiveData instances becomes a Nat allocated from a counter.
-/

namespace AnswerOverflow

/-- Server-wide visibility settings, from visibility/types.ts. -/
structure ServerVisibilityContext where
  considerAllMessagesPublicEnabled : Bool
  anonymizeMessagesEnabled : Bool
deriving DecidableEq, Repr

/-- Per-(user, server) consent record, from visibility/types.ts. -/
structure UserVisibilityContext where
  canPubliclyDisplayMessages : Bool
deriving DecidableEq, Repr

/-- Composed visibility context, from visibility/types.ts. -/
structure VisibilityContext where
  server : ServerVisibilityContext
  user : Option UserVisibilityContext
deriving DecidableEq, Repr

/-- A Discord account row as consumed by the visibility engine:
id, name and an optional avatar. -/
structure DiscordAccount where
  id : String
  name : String
  avatar : Option String
deriving DecidableEq, Repr

/-- A message row as consumed by the visibility engine.  The fields other
than id, authorId and serverId stand for the remaining payload carried
through the sanitizer unchanged. -/
structure Message where
  id : String
  authorId : String
  serverId : String
  channelId : String
  content : String
deriving DecidableEq, Repr

/-- A sanitized author: the union VisibleAuthor / AnonymousAuthor from
visibility/types.ts collapses to one record shape. -/
structure SanitizedAuthor where
  id : String
  name : String
  avatar : Option String
  public : Bool
deriving DecidableEq, Repr

/-- A sanitized message: the original message fields plus the computed
public flag, from visibility/types.ts. -/
structure SanitizedMessage extends Message where
  public : Bool
deriving DecidableEq, Repr

/-- One element of the output of applyVisibilityToMessages. -/
structure MessageAuthorPair where
  message : SanitizedMessage
  author : Option SanitizedAuthor
deriving DecidableEq, Repr

/-- computeServerVisibility from visibility/compute.ts: missing
preference fields default to false. -/
def computeServerVisibility (considerAllMessagesPublicEnabled : Option Bool)
    (anonymizeMessagesEnabled : Option Bool) : ServerVisibilityContext :=
  { considerAllMessagesPublicEnabled := considerAllMessagesPublicEnabled.getD false
    anonymizeMessagesEnabled := anonymizeMessagesEnabled.getD false }

/-- computeUserVisibility from visibility/compute.ts: undefined input
returns null, otherwise the boolean is wrapped as-is. -/
def computeUserVisibility (canPubliclyDisplayMessages : Option Bool) :
    Option UserVisibilityContext :=
  match canPubliclyDisplayMessages with
  | none => none
  | some b => some { canPubliclyDisplayMessages := b }

/-- isMessagePublic from visibility/compute.ts. -/
def isMessagePublic (serverVisibility : ServerVisibilityContext)
    (userVisibility : Option UserVisibilityContext) : Bool :=
  if serverVisibility.considerAllMessagesPublicEnabled then
    true
  else
    match userVisibility with
    | some u => u.canPubliclyDisplayMessages
    | none => false

/-- shouldAnonymizeAuthor from visibility/compute.ts. -/
def shouldAnonymizeAuthor (serverVisibility : ServerVisibilityContext)
    (_userVisibility : Option UserVisibilityContext) (isPublic : Bool) : Bool :=
  if !isPublic then
    true
  else
    serverVisibility.anonymizeMessagesEnabled

/-- Wrap an integer to the signed 32-bit range, as the JS bitwise
operations in simpleHash do. -/
def toInt32 (x : Int) : Int :=
  (x + 2 ^ 31) % 2 ^ 32 - 2 ^ 31

/-- One step of simpleHash from visibility/anonymize.ts:
hash = (hash << 5) - hash + char, coerced to int32 by hash & hash. -/
def simpleHashStep (h : Int) (c : Char) : Int :=
  toInt32 (toInt32 (h * 32) - h + c.toNat)

/-- simpleHash from visibility/anonymize.ts, folded over the characters
of the string, followed by Math.abs. -/
def simpleHash (s : String) : Int :=
  (s.data.foldl simpleHashStep 0).natAbs

/-- The fixed adjective list of generateAnonymousName. -/
def anonAdjectives : List String :=
  ["Anonymous", "Unknown", "Mysterious", "Hidden", "Secret", "Private",
   "Unnamed", "Unidentified"]

/-- generateAnonymousName from visibility/anonymize.ts. -/
def generateAnonymousName (authorId : String) : String :=
  let hash := (simpleHash authorId).toNat
  let adjective := (anonAdjectives.get? (hash % anonAdjectives.length)).getD ""
  adjective ++ " User"

/-- anonymizeAuthor from visibility/anonymize.ts: keeps the id, replaces
the name with the deterministic pseudonym, nulls the avatar. -/
def anonymizeAuthor (author : DiscordAccount) : SanitizedAuthor :=
  { id := author.id
    name := generateAnonymousName author.id
    avatar := none
    public := false }

/-- applyVisibilityToAuthor from visibility/transform.ts. -/
def applyVisibilityToAuthor (author : Option DiscordAccount)
    (visibility : VisibilityContext) (isPublic : Bool) : Option SanitizedAuthor :=
  match author with
  | none => none
  | some a =>
    let shouldAnonymize := shouldAnonymizeAuthor visibility.server visibility.user isPublic
    if shouldAnonymize then
      some (anonymizeAuthor a)
    else
      some { id := a.id, name := a.name, avatar := a.avatar, public := isPublic }

/-- applyVisibilityToMessages from visibility/transform.ts.  The JS Maps
are read-only here, so they are embedded as Option-valued lookup
functions; a missing key reads as none, and the JS expression
map.get(k) ?? null on a Map whose values may be null reads as
(lookup k).getD none. -/
def applyVisibilityToMessages (messages : List Message)
    (serverVisibility : ServerVisibilityContext)
    (authorMap : String → Option DiscordAccount)
    (authorVisibilityMap : String → Option (Option UserVisibilityContext)) :
    List MessageAuthorPair :=
  messages.map fun message =>
    let author := authorMap message.authorId
    let authorVisibility := (authorVisibilityMap message.authorId).getD none
    let isPublic := isMessagePublic serverVisibility authorVisibility
    let visibility : VisibilityContext := { server := serverVisibility, user := authorVisibility }
    let authorVisibilityResult := applyVisibilityToAuthor author visibility isPublic
    { message := { toMessage := message, public := isPublic }
      author := authorVisibilityResult }

/-- A serverPreferences row, from the convex schema. -/
structure ServerPreferences where
  serverId : String
  readTheRulesConsentEnabled : Option Bool
  considerAllMessagesPublicEnabled : Option Bool
  anonymizeMessagesEnabled : Option Bool
  customDomain : Option String
  subpath : Option String
deriving DecidableEq, Repr

/-- A userServerSettings row, from the convex schema. -/
structure UserServerSettings where
  serverId : String
  userId : String
  permissions : Int
  canPubliclyDisplayMessages : Bool
  messageIndexingDisabled : Bool
deriving DecidableEq, Repr

/-- Modelled from the spec: the document store consumed by the visibility
engine, reduced to the two point lookups the engine performs, namely
server-preferences-by-server-id and user-server-settings-by-(user, server).
The store itself is an external collaborator of the core. -/
structure QueryCtx where
  serverPreferences : String → Option ServerPreferences
  userServerSettings : String → String → Option UserServerSettings

/-- Modelled from the spec: findUserServerSettingsById, the
user-server-settings-by-(user, server) point lookup; its body lives
outside the provided sources. -/
def findUserServerSettingsById (ctx : QueryCtx) (userId : String)
    (serverId : String) : Option UserServerSettings :=
  ctx.userServerSettings userId serverId

/-- getServerVisibilityContext from the convex shared visibility module:
fetch the serverPreferences row by server id and feed its optional flags
to computeServerVisibility. -/
def getServerVisibilityContext (ctx : QueryCtx) (serverId : String) :
    ServerVisibilityContext :=
  let serverPreferences := ctx.serverPreferences serverId
  computeServerVisibility
    (serverPreferences.bind (·.considerAllMessagesPublicEnabled))
    (serverPreferences.bind (·.anonymizeMessagesEnabled))

/-- The insertion-ordered deduplication performed by the JS expression
Array.from(new Set(xs)): first occurrences, in input order. -/
def firstOccurrences : List String → List String
  | [] => []
  | x :: xs => x :: (firstOccurrences xs).filter (fun y => y != x)

/-- getAuthorVisibilityContexts from the convex shared visibility module,
as the lookup function of the Map it builds: every id occurring in
authorIds is mapped to the computed (possibly null) user visibility,
other ids are absent. -/
def getAuthorVisibilityContexts (ctx : QueryCtx) (serverId : String)
    (authorIds : List String) : String → Option (Option UserVisibilityContext) :=
  fun a =>
    if authorIds.contains a then
      some (computeUserVisibility
        ((findUserServerSettingsById ctx a serverId).map (·.canPubliclyDisplayMessages)))
    else
      none

/-- One iteration of the messagesByServer grouping loop of
getSanitizedMessages: push the message onto its server group, creating
the group at the end of the map (JS Map insertion order) when absent. -/
def groupStep (groups : List (String × List Message)) (m : Message) :
    List (String × List Message) :=
  if groups.any (fun g => g.1 == m.serverId) then
    groups.map (fun g => if g.1 == m.serverId then (g.1, g.2 ++ [m]) else g)
  else
    groups ++ [(m.serverId, [m])]

/-- The messagesByServer Map of getSanitizedMessages, as an association
list in key insertion order. -/
def messagesByServer (messages : List Message) : List (String × List Message) :=
  messages.foldl groupStep []

/-- getSanitizedMessages from the convex shared visibility module:
group by server, fetch each server context once, restrict the author
map, sanitize each group, concatenate the groups in map order. -/
def getSanitizedMessages (ctx : QueryCtx) (messages : List Message)
    (authorMap : String → Option DiscordAccount) : List MessageAuthorPair :=
  if messages.isEmpty then
    []
  else
    (messagesByServer messages).flatMap fun g =>
      let serverId := g.1
      let serverMessages := g.2
      let serverAuthorIds := firstOccurrences (serverMessages.map (·.authorId))
      let serverVisibility := getServerVisibilityContext ctx serverId
      let authorVisibilityMap := getAuthorVisibilityContexts ctx serverId serverAuthorIds
      let serverAuthorMap : String → Option DiscordAccount := fun a =>
        if serverAuthorIds.contains a then authorMap a else none
      applyVisibilityToMessages serverMessages serverVisibility serverAuthorMap
        authorVisibilityMap

/-- The grouping order stated by the spec, defined independently of the
implementation: server groups in order of each server id's first
occurrence, input order within each group. -/
def groupedBySpec (messages : List Message) : List Message :=
  (firstOccurrences (messages.map (·.serverId))).flatMap
    (fun sid => messages.filter (fun m => m.serverId == sid))

/-
Live Query Cache (database.ts).  LiveData object identity is a Nat
allocated from nextId.  Each ActiveWatch entry carries, besides the
refCount of the source, the currentValue closure variable of the
resolver and whether the LiveData constructor callback is still in the
callbacks set (LiveData.destroy removes it).  The module-level WeakMap
liveDataCacheKeys is an association list from LiveData identity to
cache key.  upstreamSubs lists the cache keys whose client.onUpdate
subscription is still registered.  fetchCount counts completed initial
fetches, so a fresh upstream fetch is observable.
-/

/-- The per-key ActiveWatch record of database.ts plus the closure state
of its resolver pass. -/
structure WatchEntry (V : Type) where
  liveDataId : Nat
  refCount : Int
  currentValue : V
  callbackRegistered : Bool
deriving DecidableEq, Repr

/-- The mutable fields of one LiveData object: its _data cell and
whether destroy() already ran (unsubscribe consumed). -/
structure LiveDataObj (V : Type) where
  data : V
  destroyed : Bool
deriving DecidableEq, Repr

/-- The process-wide state of the live query cache. -/
structure CacheState (V : Type) where
  activeWatches : List (String × WatchEntry V)
  liveDataObjs : List (Nat × LiveDataObj V)
  liveDataCacheKeys : List (Nat × String)
  upstreamSubs : List String
  nextId : Nat
  fetchCount : Nat
deriving DecidableEq, Repr

/-- Lookup in an association list, first match wins (JS Map get). -/
def alookup {K : Type} [BEq K] {A : Type} (k : K) : List (K × A) → Option A
  | [] => none
  | p :: ps => if p.1 == k then some p.2 else alookup k ps

/-- Overwrite the value at a key of an association list, leaving other
entries alone (JS Map set on an existing key). -/
def aset {K : Type} [BEq K] {A : Type} (k : K) (v : A) (l : List (K × A)) :
    List (K × A) :=
  l.map fun p => if p.1 == k then (k, v) else p

/-- JS Map/WeakMap set: overwrite when present, append when absent. -/
def aupsert {K : Type} [BEq K] {A : Type} (k : K) (v : A) (l : List (K × A)) :
    List (K × A) :=
  if (alookup k l).isSome then aset k v l else l ++ [(k, v)]

/-- JS Map/WeakMap delete. -/
def aremove {K : Type} [BEq K] {A : Type} (k : K) (l : List (K × A)) :
    List (K × A) :=
  l.filter fun p => !(p.1 == k)

/-- The empty cache state. -/
def initCache (V : Type) : CacheState V :=
  { activeWatches := [], liveDataObjs := [], liveDataCacheKeys := [],
    upstreamSubs := [], nextId := 0, fetchCount := 0 }

/-- One acquisition through watchQueryToLiveData / watchResolver for an
already-computed cache key k.  The dedup branch increments refCount and
returns the stored LiveData identity; the miss branch runs the initial
fetch (propagating its failure with no state change), registers the
upstream subscription, creates the LiveData and stores the ActiveWatch
with refCount 1.  Both branches then record the cache key for the
returned LiveData in the WeakMap, as watchQueryToLiveData does after
Effect.request. -/
def acquire {V : Type} {E : Type} (fetch : String → Except E V) (k : String)
    (s : CacheState V) : Except E (Nat × CacheState V) :=
  match alookup k s.activeWatches with
  | some w =>
    Except.ok (w.liveDataId,
      { s with
          activeWatches := aset k { w with refCount := w.refCount + 1 } s.activeWatches
          liveDataCacheKeys := aupsert w.liveDataId k s.liveDataCacheKeys })
  | none =>
    match fetch k with
    | Except.error e => Except.error e
    | Except.ok v =>
      Except.ok (s.nextId,
        { activeWatches := s.activeWatches ++
            [(k, { liveDataId := s.nextId, refCount := 1, currentValue := v,
                   callbackRegistered := true })]
          liveDataObjs := s.liveDataObjs ++ [(s.nextId, { data := v, destroyed := false })]
          liveDataCacheKeys := aupsert s.nextId k s.liveDataCacheKeys
          upstreamSubs := s.upstreamSubs ++ [k]
          nextId := s.nextId + 1
          fetchCount := s.fetchCount + 1 })

/-- LiveData.destroy from database.ts: on its first run it removes the
update callback of this LiveData from the callbacks set of the watch
that created it and marks the unsubscribe handle consumed; later runs
are no-ops. -/
def destroyLiveData {V : Type} (ldId : Nat) (s : CacheState V) : CacheState V :=
  match alookup ldId s.liveDataObjs with
  | none => s
  | some o =>
    if o.destroyed then
      s
    else
      { s with
          liveDataObjs := aset ldId { o with destroyed := true } s.liveDataObjs
          activeWatches := s.activeWatches.map fun p =>
            if p.2.liveDataId == ldId then
              (p.1, { p.2 with callbackRegistered := false })
            else p }

/-- The release finalizer of watchQueryToLiveData, called with the
LiveData the acquirer holds: look its cache key up in the WeakMap; when
found, decrement the refCount of that key's watch, tearing the watch
and its upstream subscription down exactly when the decremented count
is 0, then delete the WeakMap entry; finally run liveData.destroy() in
every case. -/
def release {V : Type} (ldId : Nat) (s : CacheState V) : CacheState V :=
  let s1 :=
    match alookup ldId s.liveDataCacheKeys with
    | none => s
    | some k =>
      let s' :=
        match alookup k s.activeWatches with
        | none => s
        | some w =>
          let rc := w.refCount - 1
          if rc == 0 then
            { s with
                activeWatches := aremove k s.activeWatches
                upstreamSubs := s.upstreamSubs.erase k }
          else
            { s with activeWatches := aset k { w with refCount := rc } s.activeWatches }
      { s' with liveDataCacheKeys := aremove ldId s'.liveDataCacheKeys }
  destroyLiveData ldId s1

/-- The upstream watch for key k fires with a new value: the
client.onUpdate callback overwrites currentValue and invokes every
callback in the callbacks set; the LiveData callback, when still
registered, copies the new value into _data. -/
def upstreamFire {V : Type} (k : String) (v : V) (s : CacheState V) : CacheState V :=
  if s.upstreamSubs.contains k then
    match alookup k s.activeWatches with
    | none => s
    | some w =>
      let s1 := { s with activeWatches := aset k { w with currentValue := v } s.activeWatches }
      if w.callbackRegistered then
        match alookup w.liveDataId s1.liveDataObjs with
        | none => s1
        | some o => { s1 with liveDataObjs := aset w.liveDataId { o with data := v } s1.liveDataObjs }
      else
        s1
  else
    s

/-- Read .data of the LiveData with the given identity. -/
def readLiveData {V : Type} (ldId : Nat) (s : CacheState V) : Option V :=
  (alookup ldId s.liveDataObjs).map (·.data)

/-- An initial fetch that always succeeds with the given value. -/
def fetchConst (v : Nat) : String → Except Unit Nat :=
  fun _ => Except.ok v

/-- The overlapping-holders trace behind claim C4: acquire one key
twice, let each holder release its acquisition once, acquire again.
Returns the three LiveData identities and the final state. -/
def c4Run : Except Unit (Nat × Nat × Nat × CacheState Nat) := do
  let p1 ← acquire (fetchConst 100) "q" (initCache Nat)
  let p2 ← acquire (fetchConst 100) "q" p1.2
  let s3 := release p1.1 p2.2
  let s4 := release p2.1 s3
  let p5 ← acquire (fetchConst 100) "q" s4
  pure (p1.1, p2.1, p5.1, p5.2)

/-- The teardown trace behind claim C5: acquire one key three times,
release all three acquisitions, then acquire again.  Returns the first
LiveData identity, the state after the three releases, and the
reacquisition result. -/
def c5Run : Except Unit ((Nat × CacheState Nat) × (Nat × CacheState Nat)) := do
  let p1 ← acquire (fetchConst 100) "q" (initCache Nat)
  let p2 ← acquire (fetchConst 100) "q" p1.2
  let p3 ← acquire (fetchConst 100) "q" p2.2
  let s4 := release p1.1 p3.2
  let s5 := release p2.1 s4
  let s6 := release p3.1 s5
  let p7 ← acquire (fetchConst 100) "q" s6
  pure ((p1.1, s6), (p7.1, p7.2))

/-- The update-propagation trace behind claim C6: acquire one key
twice; in one branch the upstream fires with both holders outstanding,
in the other one holder releases first and the upstream fires after.
Returns the shared LiveData identity and both resulting states. -/
def c6Run : Except Unit (Nat × CacheState Nat × CacheState Nat) := do
  let p1 ← acquire (fetchConst 100) "q" (initCache Nat)
  let p2 ← acquire (fetchConst 100) "q" p1.2
  let sFireBoth := upstreamFire "q" 200 p2.2
  let sRel := release p1.1 p2.2
  let sFireAfter := upstreamFire "q" 200 sRel
  pure (p1.1, sFireBoth, sFireAfter)

/-
Cache keys (database.ts, watchRequest):
  cacheKey = JSON.stringify({ functionName, args })
with functionName = getFunctionName(query).  The JSON value space and
JSON.stringify are embedded below; object fields keep their insertion
order, exactly as JS objects do when stringified.
-/

mutual
/-- A JSON value; objects keep their field insertion order. -/
inductive Json where
  | null : Json
  | bool : Bool → Json
  | num : Int → Json
  | str : String → Json
  | arr : JsonList → Json
  | obj : JsonFields → Json
/-- The elements of a JSON array. -/
inductive JsonList where
  | nil : JsonList
  | cons : Json → JsonList → JsonList
/-- The fields of a JSON object, in insertion order. -/
inductive JsonFields where
  | nil : JsonFields
  | cons : String → Json → JsonFields → JsonFields
end

/-- The double-quote character. -/
def qchar : Char := Char.ofNat 34

/-- The backslash character. -/
def bslash : Char := Char.ofNat 92

/-- The opening curly brace character. -/
def obrace : Char := Char.ofNat 123

/-- The closing curly brace character. -/
def cbrace : Char := Char.ofNat 125

/-- The lowercase-hex digit for a value below 16. -/
def hexDigit (k : Nat) : Char :=
  if k < 10 then Char.ofNat (48 + k) else Char.ofNat (87 + k)

/-- JSON.stringify string escaping for one character: quote, backslash
and the named control escapes become two-character escapes, the
remaining control characters become a six-character unicode escape, and
every other character stands for itself. -/
def escapeChar (c : Char) : List Char :=
  if c == qchar then [bslash, qchar]
  else if c == bslash then [bslash, bslash]
  else if c == Char.ofNat 8 then [bslash, 'b']
  else if c == Char.ofNat 12 then [bslash, 'f']
  else if c == Char.ofNat 10 then [bslash, 'n']
  else if c == Char.ofNat 13 then [bslash, 'r']
  else if c == Char.ofNat 9 then [bslash, 't']
  else if c.toNat < 32 then
    [bslash, 'u', '0', '0', hexDigit (c.toNat / 16), hexDigit (c.toNat % 16)]
  else [c]

/-- Escape every character of a string body. -/
def escapeList (l : List Char) : List Char :=
  l.flatMap escapeChar

/-- A JSON string literal: the escaped body between double quotes. -/
def quoteChars (s : String) : List Char :=
  qchar :: (escapeList s.data ++ [qchar])

/-- The decimal digit character for a value below 10. -/
def digitChar (k : Nat) : Char := Char.ofNat (48 + k)

/-- Decimal digits of a number, least significant first, empty for 0;
the first argument is fuel, sufficient whenever it bounds the number. -/
def natDigitsAux : Nat → Nat → List Char
  | 0, _ => []
  | fuel + 1, n =>
    if n = 0 then [] else digitChar (n % 10) :: natDigitsAux fuel (n / 10)

/-- The decimal representation of a natural number. -/
def natChars (n : Nat) : List Char :=
  if n = 0 then [digitChar 0] else (natDigitsAux n n).reverse

/-- The decimal representation of an integer, as JSON.stringify emits
an integral number. -/
def intChars (n : Int) : List Char :=
  if n < 0 then '-' :: natChars n.natAbs else natChars n.toNat

/-- The characters of the JSON null keyword. -/
def kwNull : List Char := ("null").toList

/-- The characters of the JSON true keyword. -/
def kwTrue : List Char := ("true").toList

/-- The characters of the JSON false keyword. -/
def kwFalse : List Char := ("false").toList

mutual
/-- JSON.stringify of a value, as a character list. -/
def stringifyJson : Json → List Char
  | .null => kwNull
  | .bool true => kwTrue
  | .bool false => kwFalse
  | .num n => intChars n
  | .str s => quoteChars s
  | .arr xs => '[' :: (stringifyArr xs ++ [']'])
  | .obj fs => obrace :: (stringifyObj fs ++ [cbrace])
/-- The comma-separated element list of an array. -/
def stringifyArr : JsonList → List Char
  | .nil => []
  | .cons x tl => stringifyJson x ++ stringifySepArr tl
/-- The remaining elements of an array, each preceded by a comma. -/
def stringifySepArr : JsonList → List Char
  | .nil => []
  | .cons x tl => ',' :: (stringifyJson x ++ stringifySepArr tl)
/-- The comma-separated field list of an object. -/
def stringifyObj : JsonFields → List Char
  | .nil => []
  | .cons k v tl => quoteChars k ++ (':' :: stringifyJson v ++ stringifySepObj tl)
/-- The remaining fields of an object, each preceded by a comma. -/
def stringifySepObj : JsonFields → List Char
  | .nil => []
  | .cons k v tl => ',' :: (quoteChars k ++ (':' :: stringifyJson v ++ stringifySepObj tl))
end

/-- The cache key of watchRequest:
JSON.stringify of the two-field object with the function name and the
argument value, fields in this insertion order. -/
def cacheKey (functionName : String) (args : Json) : List Char :=
  stringifyJson (.obj (.cons "functionName" (.str functionName)
    (.cons "args" args .nil)))

/-- Boolean lexicographic order on key characters, used only to fix one
canonical field order. -/
def keyLe (xs ys : List Char) : Bool :=
  match xs, ys with
  | [], _ => true
  | _ :: _, [] => false
  | x :: xt, y :: yt =>
    if x.toNat < y.toNat then true
    else if y.toNat < x.toNat then false
    else keyLe xt yt

/-- Insert a field into a key-sorted field list. -/
def insortField (k : String) (v : Json) : JsonFields → JsonFields
  | .nil => .cons k v .nil
  | .cons k2 v2 tl =>
    if keyLe k.data k2.data then .cons k v (.cons k2 v2 tl)
    else .cons k2 v2 (insortField k v tl)

mutual
/-- Modelled from the spec: the canonical encoding under which argument
values are compared structurally, with object fields sorted by key so
that insertion order is forgotten. -/
def canonJson : Json → Json
  | .null => .null
  | .bool b => .bool b
  | .num n => .num n
  | .str s => .str s
  | .arr xs => .arr (canonList xs)
  | .obj fs => .obj (canonFields fs)
/-- Canonicalize every element of an array. -/
def canonList : JsonList → JsonList
  | .nil => .nil
  | .cons x tl => .cons (canonJson x) (canonList tl)
/-- Canonicalize every field value and sort the fields by key. -/
def canonFields : JsonFields → JsonFields
  | .nil => .nil
  | .cons k v tl => insortField k (canonJson v) (canonFields tl)
end

/-- Modelled from the spec: two argument values are structurally equal
when their canonical encodings agree. -/
def specStructEq (a b : Json) : Prop :=
  canonJson a = canonJson b

/-- The value of a decimal digit character. -/
def digitVal (c : Char) : Nat := c.toNat - 48

/-- The number denoted by a least-significant-first digit list; used to
reconstruct a number from its serialized digits. -/
def ofDigitsRev : List Char → Nat
  | [] => 0
  | d :: ds => digitVal d + 10 * ofDigitsRev ds

/-- The value of a lowercase-hex digit character. -/
def hexVal (c : Char) : Nat :=
  if 97 ≤ c.toNat then c.toNat - 87 else c.toNat - 48

/-- Decode one escaped character from the front of a serialized string
body; inverse to escapeChar on serializer output. -/
def decodeEsc (l : List Char) : Option (Char × List Char) :=
  match l with
  | [] => none
  | c :: r =>
    if c == bslash then
      match r with
      | [] => none
      | e :: r2 =>
        if e == 'u' then
          match r2 with
          | _ :: _ :: h1 :: h2 :: r3 => some (Char.ofNat (16 * hexVal h1 + hexVal h2), r3)
          | _ => none
        else if e == qchar then some (qchar, r2)
        else if e == bslash then some (bslash, r2)
        else if e == 'b' then some (Char.ofNat 8, r2)
        else if e == 'f' then some (Char.ofNat 12, r2)
        else if e == 'n' then some (Char.ofNat 10, r2)
        else if e == 'r' then some (Char.ofNat 13, r2)
        else if e == 't' then some (Char.ofNat 9, r2)
        else none
    else some (c, r)

/-- Whether a character is a decimal digit. -/
def isDigitChar (c : Char) : Bool :=
  decide (48 ≤ c.toNat) && decide (c.toNat ≤ 57)

/-- The rest of a serialized stream never starts with a digit; this is
what makes the maximal-munch reading of a serialized number unambiguous. -/
def headNotDigit (r : List Char) : Prop :=
  ∀ c, r.head? = some c → isDigitChar c = false

/-- The class of the first character of a serialized JSON value. -/
def charTag (c : Char) : Nat :=
  if c = 'n' then 0
  else if c = 't' then 1
  else if c = 'f' then 1
  else if c = qchar then 3
  else if c = '[' then 4
  else if c = obrace then 5
  else if c = '-' ∨ isDigitChar c = true then 6
  else 7

/-- The class of a JSON value, matching the class of the first character
of its serialization. -/
def jsonTag : Json → Nat
  | .null => 0
  | .bool _ => 1
  | .num _ => 6
  | .str _ => 3
  | .arr _ => 4
  | .obj _ => 5

/-! Theorems. -/

/-- C1: if the server considers all messages public, isMessagePublic is
true for every user including null; otherwise it is true exactly when a
user visibility is present with canPubliclyDisplayMessages true, absent
or explicit-false consent both yielding false. -/
theorem isMessagePublic_spec (server : ServerVisibilityContext)
    (user : Option UserVisibilityContext) :
    (server.considerAllMessagesPublicEnabled = true →
      isMessagePublic server user = true) ∧
    (server.considerAllMessagesPublicEnabled = false →
      (isMessagePublic server user = true ↔
        ∃ u, user = some u ∧ u.canPubliclyDisplayMessages = true)) := by
  constructor
  · intro h
    simp [isMessagePublic, h]
  · intro h
    cases user with
    | none => simp [isMessagePublic, h]
    | some u => simp [isMessagePublic, h]

/-- Witness for C1 at concrete inputs. -/
theorem isMessagePublic_spec_witness :
    isMessagePublic ⟨true, false⟩ none = true ∧
    (isMessagePublic ⟨false, false⟩ (some ⟨true⟩) = true ↔
      ∃ u, (some ⟨true⟩ : Option UserVisibilityContext) = some u ∧
        u.canPubliclyDisplayMessages = true) :=
  ⟨(isMessagePublic_spec ⟨true, false⟩ none).1 rfl,
   (isMessagePublic_spec ⟨false, false⟩ (some ⟨true⟩)).2 rfl⟩

/-- C2: shouldAnonymizeAuthor returns true whenever the message is not
public, independently of the anonymize flag, and for a public message
it returns exactly the server anonymizeMessagesEnabled flag. -/
theorem shouldAnonymizeAuthor_spec (server : ServerVisibilityContext)
    (user : Option UserVisibilityContext) (isPublic : Bool) :
    (isPublic = false → shouldAnonymizeAuthor server user isPublic = true) ∧
    (isPublic = true →
      shouldAnonymizeAuthor server user isPublic = server.anonymizeMessagesEnabled) := by
  constructor <;> intro h <;> simp [shouldAnonymizeAuthor, h]

/-- Witness for C2 at concrete inputs. -/
theorem shouldAnonymizeAuthor_spec_witness :
    shouldAnonymizeAuthor ⟨false, false⟩ none false = true ∧
    shouldAnonymizeAuthor ⟨false, true⟩ none true = true :=
  ⟨(shouldAnonymizeAuthor_spec ⟨false, false⟩ none false).1 rfl,
   (shouldAnonymizeAuthor_spec ⟨false, true⟩ none true).2 rfl⟩

/-- C3: every non-null sanitized author produced by
applyVisibilityToAuthor has a null avatar whenever its public field is
false, and its id always equals the input author id. -/
theorem applyVisibilityToAuthor_invariant (a : DiscordAccount)
    (ctx : VisibilityContext) (isPublic : Bool) (r : SanitizedAuthor)
    (h : applyVisibilityToAuthor (some a) ctx isPublic = some r) :
    (r.public = false → r.avatar = none) ∧ r.id = a.id := by
  simp only [applyVisibilityToAuthor] at h
  split at h
  · cases h
    simp [anonymizeAuthor]
  · cases h
    rename_i hna
    constructor
    · intro hp
      exfalso
      simp only at hp
      apply hna
      simp [shouldAnonymizeAuthor, hp]
    · rfl

/-- Witness for C3 at a concrete input. -/
theorem applyVisibilityToAuthor_invariant_witness :
    applyVisibilityToAuthor (some ⟨"123", "Alice", some "a.png"⟩)
      ⟨⟨false, false⟩, none⟩ false = some (anonymizeAuthor ⟨"123", "Alice", some "a.png"⟩) ∧
    (((anonymizeAuthor ⟨"123", "Alice", some "a.png"⟩).public = false →
      (anonymizeAuthor ⟨"123", "Alice", some "a.png"⟩).avatar = none) ∧
     (anonymizeAuthor ⟨"123", "Alice", some "a.png"⟩).id = "123") :=
  ⟨by decide,
   applyVisibilityToAuthor_invariant ⟨"123", "Alice", some "a.png"⟩
     ⟨⟨false, false⟩, none⟩ false _ (by decide)⟩

/-- C9: applyVisibilityToMessages maps each input message to one output
pair in order; a missing author map entry yields a null author, and a
missing visibility map entry is judged as null (non-consenting) user
visibility. -/
theorem applyVisibilityToMessages_spec (messages : List Message)
    (sv : ServerVisibilityContext) (amap : String → Option DiscordAccount)
    (avmap : String → Option (Option UserVisibilityContext)) :
    (applyVisibilityToMessages messages sv amap avmap).length = messages.length ∧
    ∀ (i : Nat) (m : Message) (p : MessageAuthorPair), messages[i]? = some m →
      (applyVisibilityToMessages messages sv amap avmap)[i]? = some p →
      (p.message.toMessage = m ∧
       (amap m.authorId = none → p.author = none) ∧
       (avmap m.authorId = none →
         p.message.public = isMessagePublic sv none ∧
         p.author = applyVisibilityToAuthor (amap m.authorId)
           ⟨sv, none⟩ (isMessagePublic sv none))) := by
  constructor
  · simp [applyVisibilityToMessages]
  · intro i m p hm hp
    simp only [applyVisibilityToMessages] at hp
    rw [List.getElem?_map, hm] at hp
    simp only [Option.map_some'] at hp
    obtain rfl := Option.some.inj hp
    refine ⟨rfl, ?_, ?_⟩
    · intro ha
      simp [ha, applyVisibilityToAuthor]
    · intro hv
      simp [hv]

/-- Witness for C9 at a concrete input. -/
theorem applyVisibilityToMessages_spec_witness :
    (applyVisibilityToMessages [⟨"m1", "u1", "s1", "c1", "hi"⟩] ⟨false, false⟩
      (fun _ => none) (fun _ => none)).length = 1 ∧
    (⟨⟨⟨"m1", "u1", "s1", "c1", "hi"⟩, false⟩, none⟩ : MessageAuthorPair).message.toMessage
        = ⟨"m1", "u1", "s1", "c1", "hi"⟩ ∧
    ((fun (_ : String) => (none : Option DiscordAccount)) "u1" = none →
      (⟨⟨⟨"m1", "u1", "s1", "c1", "hi"⟩, false⟩, none⟩ : MessageAuthorPair).author = none) :=
  ⟨(applyVisibilityToMessages_spec [⟨"m1", "u1", "s1", "c1", "hi"⟩] ⟨false, false⟩
      (fun _ => none) (fun _ => none)).1,
   (((applyVisibilityToMessages_spec [⟨"m1", "u1", "s1", "c1", "hi"⟩] ⟨false, false⟩
      (fun _ => none) (fun _ => none)).2 0 _ _ rfl (by decide))).1,
   (((applyVisibilityToMessages_spec [⟨"m1", "u1", "s1", "c1", "hi"⟩] ⟨false, false⟩
      (fun _ => none) (fun _ => none)).2 0 _ _ rfl (by decide))).2.1⟩

theorem alookup_cons {K A : Type} [BEq K] (k : K) (p : K × A) (t : List (K × A)) :
    alookup k (p :: t) = if p.1 == k then some p.2 else alookup k t := rfl

theorem alookup_append {K A : Type} [BEq K] (k : K) (l₁ l₂ : List (K × A)) :
    alookup k (l₁ ++ l₂) = match alookup k l₁ with
      | some v => some v
      | none => alookup k l₂ := by
  induction l₁ with
  | nil => simp [alookup]
  | cons p t ih =>
    by_cases h : p.1 == k <;> simp [alookup, h, ih]

theorem alookup_append_some {K A : Type} [BEq K] {k : K} {l₁ : List (K × A)}
    (l₂ : List (K × A)) {v : A} (h : alookup k l₁ = some v) :
    alookup k (l₁ ++ l₂) = some v := by
  rw [alookup_append, h]

theorem alookup_append_none {K A : Type} [BEq K] {k : K} {l₁ : List (K × A)}
    (l₂ : List (K × A)) (h : alookup k l₁ = none) :
    alookup k (l₁ ++ l₂) = alookup k l₂ := by
  rw [alookup_append, h]

theorem alookup_eq_none_of_keys {K A : Type} [BEq K] [LawfulBEq K] (k : K)
    (l : List (K × A)) (h : ∀ p ∈ l, p.1 ≠ k) : alookup k l = none := by
  induction l with
  | nil => rfl
  | cons p t ih =>
    have hp : p.1 ≠ k := h p (by simp)
    simp only [alookup_cons, beq_iff_eq, hp, if_false]
    exact ih fun q hq => h q (by simp [hq])

theorem alookup_bump (sid k : String) (m : Message)
    (l : List (String × List Message)) :
    alookup k (l.map fun g => if g.1 == sid then (g.1, g.2 ++ [m]) else g) =
      if k = sid then (alookup k l).map (fun v => v ++ [m]) else alookup k l := by
  induction l with
  | nil => split <;> simp [alookup]
  | cons p t ih =>
    by_cases hps : p.1 = sid
    · have hhead : (if p.1 == sid then (p.1, p.2 ++ [m]) else p) = (p.1, p.2 ++ [m]) := by
        simp [hps]
      by_cases hk : k = sid
      · subst hk
        have hpk : (p.1 == k) = true := by simp [hps]
        rw [List.map_cons, hhead, alookup_cons, alookup_cons]
        simp [hpk]
      · have hpk : (p.1 == k) = false := by
          simp only [beq_eq_false_iff_ne, ne_eq]
          intro h
          exact hk (h ▸ hps)
        simp only [List.map_cons, hhead, alookup_cons, hpk, Bool.false_eq_true, if_false]
        rw [ih]
    · have hhead : (if p.1 == sid then (p.1, p.2 ++ [m]) else p) = p := by
        simp [hps]
      simp only [List.map_cons, hhead, alookup_cons]
      by_cases hpk : p.1 = k
      · have hk : ¬ (k = sid) := fun h => hps (hpk.trans h)
        have hb : (p.1 == k) = true := by simp [hpk]
        simp [hb, hk]
      · have hb : (p.1 == k) = false := by simp [hpk]
        simp only [hb, Bool.false_eq_true, if_false]
        rw [ih]

theorem mem_firstOccurrences (x : String) (l : List String) :
    x ∈ firstOccurrences l ↔ x ∈ l := by
  induction l with
  | nil => simp [firstOccurrences]
  | cons y t ih =>
    by_cases hxy : x = y
    · simp [firstOccurrences, hxy]
    · simp [firstOccurrences, List.mem_filter, hxy, ih, bne_iff_ne]

theorem nodup_firstOccurrences (l : List String) : (firstOccurrences l).Nodup := by
  induction l with
  | nil => simp [firstOccurrences]
  | cons y t ih =>
    refine List.Nodup.cons ?_ (List.Nodup.filter _ ih)
    intro hy
    have := List.mem_filter.mp hy
    simp [bne_iff_ne] at this

theorem firstOccurrences_append_singleton (l : List String) (x : String) :
    firstOccurrences (l ++ [x]) =
      if x ∈ l then firstOccurrences l else firstOccurrences l ++ [x] := by
  induction l with
  | nil => simp [firstOccurrences]
  | cons y t ih =>
    simp only [List.cons_append, firstOccurrences]
    by_cases hx : x ∈ t
    · have hmem : x ∈ y :: t := List.mem_cons_of_mem y hx
      simp [ih, hx, hmem]
    · by_cases hxy : x = y
      · subst hxy
        have hmem : x ∈ x :: t := List.mem_cons_self x t
        simp [ih, hx, hmem, List.filter_append, firstOccurrences]
      · have hmem : x ∉ y :: t := by simp [hxy, hx]
        simp [ih, hx, hmem, List.filter_append, firstOccurrences, hxy,
          Ne.symm hxy, bne_iff_ne]

theorem firstOccurrences_filter_ne (l : List String) (k : String) :
    firstOccurrences (l.filter (fun x => x != k)) =
      (firstOccurrences l).filter (fun x => x != k) := by
  induction l with
  | nil => simp [firstOccurrences]
  | cons y t ih =>
    by_cases hyk : y = k
    · subst hyk
      simp only [List.filter_cons, bne_self_eq_false, Bool.false_eq_true, if_false,
        firstOccurrences, ih]
      rw [List.filter_filter]
      exact (List.filter_congr fun z _ => Bool.and_self _).symm
    · have hby : (y != k) = true := by simp [bne_iff_ne, hyk]
      simp only [List.filter_cons, hby, if_true, firstOccurrences, ih]
      rw [List.filter_filter, List.filter_filter]
      exact congrArg (fun l => y :: l) (List.filter_congr fun z _ => Bool.and_comm _ _)

theorem groupStep_keys (acc : List (String × List Message)) (pre : List Message)
    (m : Message)
    (h1 : acc.map Prod.fst = firstOccurrences (pre.map (·.serverId))) :
    (groupStep acc m).map Prod.fst =
      firstOccurrences ((pre ++ [m]).map (·.serverId)) := by
  unfold groupStep
  by_cases hc : acc.any (fun g => g.1 == m.serverId)
  · rw [if_pos hc]
    have hkeys : ((acc.map fun g => if g.1 == m.serverId then (g.1, g.2 ++ [m]) else g).map
        Prod.fst) = acc.map Prod.fst := by
      rw [List.map_map]
      exact List.map_congr_left fun g _ => by
        simp only [Function.comp_apply]
        split <;> rfl
    have hsid : m.serverId ∈ pre.map (·.serverId) := by
      rcases List.any_eq_true.mp hc with ⟨g, hg, hgb⟩
      have hfst : g.1 = m.serverId := by simpa using hgb
      have hmem : m.serverId ∈ acc.map Prod.fst := List.mem_map.mpr ⟨g, hg, hfst⟩
      rw [h1] at hmem
      exact (mem_firstOccurrences _ _).mp hmem
    simp only [List.map_append, List.map_cons, List.map_nil]
    rw [firstOccurrences_append_singleton, if_pos hsid, hkeys, h1]
  · rw [if_neg hc]
    have hsid : m.serverId ∉ pre.map (·.serverId) := by
      intro hmem
      have hmem2 : m.serverId ∈ firstOccurrences (pre.map (·.serverId)) :=
        (mem_firstOccurrences _ _).mpr hmem
      rw [← h1] at hmem2
      rcases List.mem_map.mp hmem2 with ⟨g, hg, hfst⟩
      exact hc (List.any_eq_true.mpr ⟨g, hg, by simp [hfst]⟩)
    simp only [List.map_append, List.map_cons, List.map_nil]
    rw [firstOccurrences_append_singleton, if_neg hsid, h1]

theorem groupStep_lookup (acc : List (String × List Message)) (pre : List Message)
    (m : Message)
    (h1 : acc.map Prod.fst = firstOccurrences (pre.map (·.serverId)))
    (h2 : ∀ k, alookup k acc =
      if pre.filter (fun x => x.serverId == k) = [] then none
      else some (pre.filter (fun x => x.serverId == k))) :
    ∀ k, alookup k (groupStep acc m) =
      if (pre ++ [m]).filter (fun x => x.serverId == k) = [] then none
      else some ((pre ++ [m]).filter (fun x => x.serverId == k)) := by
  intro k
  have hfil : (pre ++ [m]).filter (fun x => x.serverId == k) =
      pre.filter (fun x => x.serverId == k) ++
        (if m.serverId = k then [m] else []) := by
    rw [List.filter_append]
    congr 1
    by_cases h : m.serverId = k <;> simp [h]
  unfold groupStep
  by_cases hc : acc.any (fun g => g.1 == m.serverId)
  · rw [if_pos hc, alookup_bump]
    by_cases hk : k = m.serverId
    · have hifc : (if m.serverId = k then [m] else []) = [m] := if_pos hk.symm
      rw [if_pos hk, h2 k, hfil, hifc]
      have hne : ¬ (pre.filter (fun x => x.serverId == k) = []) := by
        rcases List.any_eq_true.mp hc with ⟨g, hg, hgb⟩
        have hfst : g.1 = m.serverId := by simpa using hgb
        have hmem : m.serverId ∈ acc.map Prod.fst := List.mem_map.mpr ⟨g, hg, hfst⟩
        rw [h1] at hmem
        rcases List.mem_map.mp ((mem_firstOccurrences _ _).mp hmem) with ⟨x, hx, hxs⟩
        intro hnil
        have hxin : x ∈ pre.filter (fun y => y.serverId == k) :=
          List.mem_filter.mpr ⟨hx, by simp [hxs, hk]⟩
        rw [hnil] at hxin
        exact List.not_mem_nil x hxin
      rw [if_neg hne]
      have hne3 : ¬ (pre.filter (fun x => x.serverId == k) ++ [m] = []) := by simp
      rw [if_neg hne3]
      rfl
    · have hifc : (if m.serverId = k then [m] else []) = [] :=
        if_neg (fun h => hk h.symm)
      rw [if_neg hk, h2 k, hfil, hifc, List.append_nil]
  · rw [if_neg hc]
    have hsid : m.serverId ∉ pre.map (·.serverId) := by
      intro hmem
      have hmem2 : m.serverId ∈ firstOccurrences (pre.map (·.serverId)) :=
        (mem_firstOccurrences _ _).mpr hmem
      rw [← h1] at hmem2
      rcases List.mem_map.mp hmem2 with ⟨g, hg, hfst⟩
      exact hc (List.any_eq_true.mpr ⟨g, hg, by simp [hfst]⟩)
    by_cases hk : k = m.serverId
    · have hfe : pre.filter (fun x => x.serverId == k) = [] := by
        refine List.filter_eq_nil_iff.mpr fun x hx hb => ?_
        have hxs : x.serverId = k := by simpa using hb
        exact hsid (List.mem_map.mpr ⟨x, hx, hxs.trans hk⟩)
      have hnone : alookup k acc = none := by rw [h2 k, if_pos hfe]
      have hifc : (if m.serverId = k then [m] else []) = [m] := if_pos hk.symm
      rw [alookup_append_none _ hnone, hfil, hfe, hifc]
      have hb : (m.serverId == k) = true := by simp [hk.symm]
      simp [alookup_cons, hb]
    · have hne2 : (m.serverId == k) = false := by
        simp only [beq_eq_false_iff_ne, ne_eq]
        exact fun h => hk h.symm
      have hifc : (if m.serverId = k then [m] else []) = [] :=
        if_neg (fun h => hk h.symm)
      rw [hfil, hifc, List.append_nil]
      by_cases hfe : pre.filter (fun x => x.serverId == k) = []
      · have hnone : alookup k acc = none := by rw [h2 k, if_pos hfe]
        rw [alookup_append_none _ hnone, if_pos hfe]
        simp [alookup_cons, hne2, alookup]
      · have hsome : alookup k acc = some (pre.filter (fun x => x.serverId == k)) := by
          rw [h2 k, if_neg hfe]
        rw [alookup_append_some _ hsome, if_neg hfe]

theorem groupFold_inv : ∀ (msgs pre : List Message)
    (acc : List (String × List Message)),
    acc.map Prod.fst = firstOccurrences (pre.map (·.serverId)) →
    (∀ k, alookup k acc =
      if pre.filter (fun x => x.serverId == k) = [] then none
      else some (pre.filter (fun x => x.serverId == k))) →
    ((msgs.foldl groupStep acc).map Prod.fst =
        firstOccurrences ((pre ++ msgs).map (·.serverId)) ∧
      ∀ k, alookup k (msgs.foldl groupStep acc) =
        if (pre ++ msgs).filter (fun x => x.serverId == k) = [] then none
        else some ((pre ++ msgs).filter (fun x => x.serverId == k)))
  | [], pre, acc, h1, h2 => by
    rw [List.foldl_nil, List.append_nil]
    exact ⟨h1, h2⟩
  | m :: t, pre, acc, h1, h2 => by
    have hs1 := groupStep_keys acc pre m h1
    have hs2 := groupStep_lookup acc pre m h1 h2
    have hrec := groupFold_inv t (pre ++ [m]) (groupStep acc m) hs1 hs2
    simpa [List.append_assoc] using hrec

theorem messagesByServer_keys (msgs : List Message) :
    (messagesByServer msgs).map Prod.fst =
      firstOccurrences (msgs.map (·.serverId)) := by
  have h := groupFold_inv msgs [] [] (by simp [firstOccurrences])
    (by intro k; simp [alookup])
  simpa using h.1

theorem messagesByServer_lookup (msgs : List Message) (k : String) :
    (alookup k (messagesByServer msgs)).getD [] =
      msgs.filter (fun x => x.serverId == k) := by
  have h := (groupFold_inv msgs [] [] (by simp [firstOccurrences])
    (by intro k; simp [alookup])).2 k
  simp only [List.nil_append] at h
  unfold messagesByServer
  rw [h]
  by_cases hfe : msgs.filter (fun x => x.serverId == k) = [] <;> simp [hfe]

theorem flatMap_snd_eq (l : List (String × List Message))
    (hn : (l.map Prod.fst).Nodup) :
    l.flatMap Prod.snd = (l.map Prod.fst).flatMap (fun k => (alookup k l).getD []) := by
  induction l with
  | nil => rfl
  | cons p t ih =>
    simp only [List.map_cons, List.flatMap_cons]
    rw [List.map_cons] at hn
    have hn2 := List.nodup_cons.mp hn
    have hhead : (alookup p.1 (p :: t)).getD [] = p.2 := by simp [alookup_cons]
    rw [hhead]
    congr 1
    rw [ih hn2.2]
    refine List.flatMap_congr fun k hk => ?_
    have hne : ¬ (p.1 == k) = true := by
      simp only [beq_iff_eq]
      exact fun h => hn2.1 (h ▸ hk)
    simp [alookup_cons, hne]

theorem messagesByServer_flatten (msgs : List Message) :
    (messagesByServer msgs).flatMap Prod.snd = groupedBySpec msgs := by
  rw [flatMap_snd_eq _ (by rw [messagesByServer_keys]; exact nodup_firstOccurrences _),
    messagesByServer_keys]
  exact List.flatMap_congr fun k _ => messagesByServer_lookup msgs k

theorem groupedBySpec_cons (m : Message) (ms : List Message) :
    groupedBySpec (m :: ms) =
      m :: (ms.filter (fun x => x.serverId == m.serverId) ++
        groupedBySpec (ms.filter (fun x => x.serverId != m.serverId))) := by
  unfold groupedBySpec
  simp only [List.map_cons, firstOccurrences, List.flatMap_cons]
  have hhead : (m :: ms).filter (fun x => x.serverId == m.serverId) =
      m :: ms.filter (fun x => x.serverId == m.serverId) := by
    simp [List.filter_cons]
  rw [hhead]
  simp only [List.cons_append]
  congr 1
  have hkeys : firstOccurrences ((ms.filter (fun x => x.serverId != m.serverId)).map
      (·.serverId)) = (firstOccurrences (ms.map (·.serverId))).filter
        (fun x => x != m.serverId) := by
    have hmf : (ms.filter (fun x => x.serverId != m.serverId)).map (·.serverId) =
        (ms.map (·.serverId)).filter (fun s => s != m.serverId) := by
      rw [List.filter_map]
      rfl
    rw [hmf, firstOccurrences_filter_ne]
  rw [hkeys]
  congr 1
  refine List.flatMap_congr fun j hj => ?_
  have hjne : j ≠ m.serverId := by
    have := (List.mem_filter.mp hj).2
    simpa [bne_iff_ne] using this
  have hbne : (m.serverId == j) = false := by
    simp only [beq_eq_false_iff_ne, ne_eq]
    exact fun h => hjne h.symm
  rw [List.filter_cons, hbne]
  simp only [Bool.false_eq_true, if_false]
  rw [List.filter_filter]
  refine List.filter_congr fun x _ => ?_
  by_cases hx : x.serverId = j
  · have : (x.serverId != m.serverId) = true := by
      simp [bne_iff_ne, hx, hjne]
    simp [hx, this, hjne]
  · simp [hx]

theorem groupedBySpec_perm : ∀ (msgs : List Message),
    List.Perm (groupedBySpec msgs) msgs
  | [] => by simp [groupedBySpec, firstOccurrences]
  | m :: ms => by
    rw [groupedBySpec_cons]
    refine List.Perm.cons m ?_
    have hp := groupedBySpec_perm (ms.filter (fun x => x.serverId != m.serverId))
    have h1 : List.Perm
        (ms.filter (fun x => x.serverId == m.serverId) ++
          groupedBySpec (ms.filter (fun x => x.serverId != m.serverId)))
        (ms.filter (fun x => x.serverId == m.serverId) ++
          ms.filter (fun x => x.serverId != m.serverId)) :=
      List.Perm.append_left _ hp
    have h2 : List.Perm
        (ms.filter (fun x => x.serverId == m.serverId) ++
          ms.filter (fun x => x.serverId != m.serverId)) ms := by
      have h3 := List.filter_append_perm (fun x => x.serverId == m.serverId) ms
      have hbe : (fun x => !(x.serverId == m.serverId)) =
          (fun (x : Message) => x.serverId != m.serverId) := by
        funext x
        rfl
      rw [hbe] at h3
      exact h3
    exact h1.trans h2
termination_by msgs => msgs.length
decreasing_by
  simp only [List.length_cons]
  exact Nat.lt_succ_of_le (List.length_filter_le _ _)

theorem groupedBySpec_single (msgs : List Message) (s : String)
    (h : ∀ m ∈ msgs, m.serverId = s) : groupedBySpec msgs = msgs := by
  cases msgs with
  | nil => simp [groupedBySpec, firstOccurrences]
  | cons m t =>
    have hs : m.serverId = s := h m (List.mem_cons_self m t)
    unfold groupedBySpec
    have hkeys : firstOccurrences ((m :: t).map (·.serverId)) = [m.serverId] := by
      simp only [List.map_cons, firstOccurrences]
      have hfe : (firstOccurrences (t.map (·.serverId))).filter
          (fun y => y != m.serverId) = [] := by
        refine List.filter_eq_nil_iff.mpr fun x hx => ?_
        have hx2 : x ∈ t.map (·.serverId) := (mem_firstOccurrences _ _).mp hx
        rcases List.mem_map.mp hx2 with ⟨y, hy, hys⟩
        have : x = m.serverId := by
          rw [← hys, h y (List.mem_cons_of_mem m hy), hs]
        simp [this]
      rw [hfe]
    rw [hkeys]
    simp only [List.flatMap_cons, List.flatMap_nil, List.append_nil]
    refine List.filter_eq_self.mpr fun x hx => ?_
    have : x.serverId = m.serverId := by rw [h x hx, hs]
    simp [this]

/-- C10: getSanitizedMessages returns one sanitized pair per input
message, grouped by serverId with server groups in first-occurrence
order and input order inside each group; a single-server input comes
back in input order, while a concrete interleaved two-server input
comes back regrouped rather than in overall input order. -/
theorem getSanitizedMessages_spec (ctx : QueryCtx) (messages : List Message)
    (authorMap : String → Option DiscordAccount) :
    (getSanitizedMessages ctx messages authorMap).length = messages.length ∧
    (getSanitizedMessages ctx messages authorMap).map (·.message.toMessage) =
      groupedBySpec messages ∧
    (∀ s : String, (∀ m ∈ messages, m.serverId = s) →
      (getSanitizedMessages ctx messages authorMap).map (·.message.toMessage) =
        messages) ∧
    (getSanitizedMessages ⟨fun _ => none, fun _ _ => none⟩
        [⟨"A", "u", "s1", "c", ""⟩, ⟨"B", "u", "s2", "c", ""⟩, ⟨"C", "u", "s1", "c", ""⟩]
        (fun _ => none)).map (·.message.toMessage.id) = ["A", "C", "B"] := by
  have hmain : (getSanitizedMessages ctx messages authorMap).map (·.message.toMessage) =
      groupedBySpec messages := by
    by_cases hemp : messages.isEmpty
    · have hnil : messages = [] := List.isEmpty_iff.mp hemp
      subst hnil
      simp [getSanitizedMessages, groupedBySpec, firstOccurrences]
    · unfold getSanitizedMessages
      rw [if_neg hemp, List.map_flatMap, ← messagesByServer_flatten]
      refine List.flatMap_congr fun g hg => ?_
      unfold applyVisibilityToMessages
      rw [List.map_map]
      exact (List.map_congr_left fun x _ => rfl).trans (List.map_id _)
  refine ⟨?_, hmain, ?_, ?_⟩
  · have hlen := congrArg List.length hmain
    rw [List.length_map] at hlen
    rw [hlen]
    exact (groupedBySpec_perm messages).length_eq
  · intro s hs
    rw [hmain, groupedBySpec_single messages s hs]
  · decide

/-- Witness for C10 at a concrete single-server input. -/
theorem getSanitizedMessages_spec_witness :
    (∀ m ∈ ([⟨"A", "u", "s1", "c", ""⟩, ⟨"B", "u2", "s1", "c", ""⟩] : List Message),
      m.serverId = "s1") ∧
    (getSanitizedMessages ⟨fun _ => none, fun _ _ => none⟩
        [⟨"A", "u", "s1", "c", ""⟩, ⟨"B", "u2", "s1", "c", ""⟩] (fun _ => none)).map
      (·.message.toMessage) =
      [⟨"A", "u", "s1", "c", ""⟩, ⟨"B", "u2", "s1", "c", ""⟩] :=
  ⟨by decide,
   (getSanitizedMessages_spec ⟨fun _ => none, fun _ _ => none⟩
      [⟨"A", "u", "s1", "c", ""⟩, ⟨"B", "u2", "s1", "c", ""⟩]
      (fun _ => none)).2.2.1 "s1" (by decide)⟩

/-- C4 fails on the code: in the c4Run trace one key is acquired twice
(both acquisitions receive LiveData 0), each holder releases once, and
the key is acquired again, so exactly one acquisition is outstanding at
the end; yet the ActiveWatch refCount is 2, because the second release
found no WeakMap entry for the shared LiveData (the first release had
deleted it) and never decremented.  The claim requires refCount 1. -/
theorem c4Run_refCount_diverges :
    (c4Run.map fun r => (r.1, r.2.1, r.2.2.1,
      (alookup "q" r.2.2.2.activeWatches).map (·.refCount))).toOption =
      some (0, 0, 0, some 2) := by
  rfl

/-- C5 fails on the code: in the c5Run trace one key is acquired three
times and released three times, yet the ActiveWatch entry survives with
refCount 2 and the upstream subscription stays registered, and the
subsequent acquisition returns the same LiveData identity 0 with no
fresh fetch (fetchCount stays 1).  The claim requires the entry to be
removed, the watch unsubscribed, and the reacquisition to fetch afresh
and return a new LiveData. -/
theorem c5Run_teardown_diverges :
    (c5Run.map fun r => ((alookup "q" r.1.2.activeWatches).map (·.refCount),
      r.1.2.upstreamSubs, r.1.2.fetchCount, r.1.1, r.2.1,
      r.2.2.fetchCount)).toOption =
      some (some 2, ["q"], 1, 0, 0, 1) := by
  rfl

/-- C6 fails on the code: in the c6Run trace one key is acquired twice;
with both acquisitions outstanding an upstream fire is visible through
.data (200), but after one of the two holders releases, the release
path runs liveData.destroy() and removes the update callback, so a
subsequent upstream fire updates currentValue to 200 while .data of the
shared LiveData still reads the stale 100 for the remaining holder. -/
theorem c6Run_staleData_diverges :
    (c6Run.map fun r => (readLiveData r.1 r.2.1,
      (alookup "q" r.2.2.activeWatches).map (·.currentValue),
      readLiveData r.1 r.2.2)).toOption =
      some (some 200, some 200, some 100) := by
  rfl

/-- C8: when no watch exists for the key and the initial fetch fails,
acquire propagates exactly that error and, since it returns no new
state, registers nothing; a later acquisition of the same key from the
same state performs a fresh fetch and installs a brand-new ActiveWatch
with refCount 1. -/
theorem acquire_error_spec {V E : Type} (fetch fetch2 : String → Except E V)
    (k : String) (s : CacheState V) (e : E) (v : V)
    (hmiss : alookup k s.activeWatches = none)
    (herr : fetch k = Except.error e)
    (hok : fetch2 k = Except.ok v) :
    acquire fetch k s = Except.error e ∧
    ∃ s2, acquire fetch2 k s = Except.ok (s.nextId, s2) ∧
      alookup k s2.activeWatches =
        some { liveDataId := s.nextId, refCount := 1, currentValue := v,
               callbackRegistered := true } ∧
      s2.fetchCount = s.fetchCount + 1 ∧
      s2.upstreamSubs = s.upstreamSubs ++ [k] := by
  constructor
  · unfold acquire
    rw [hmiss, herr]
  · unfold acquire
    rw [hmiss, hok]
    refine ⟨_, rfl, ?_, rfl, rfl⟩
    rw [alookup_append_none _ hmiss]
    simp [alookup_cons]

/-- Witness for C8 at a concrete input. -/
theorem acquire_error_spec_witness :
    alookup "q" (initCache Nat).activeWatches = none ∧
    (fun (_ : String) => (Except.error () : Except Unit Nat)) "q" = Except.error () ∧
    fetchConst 100 "q" = Except.ok 100 ∧
    acquire (fun _ => Except.error ()) "q" (initCache Nat) = Except.error () := by
  refine ⟨rfl, rfl, rfl, ?_⟩
  exact (acquire_error_spec (fun _ => Except.error ()) (fetchConst 100) "q"
    (initCache Nat) () 100 rfl rfl rfl).1

theorem hexVal_hexDigit (k : Nat) (h : k < 16) : hexVal (hexDigit k) = k := by
  interval_cases k <;> decide

theorem decodeEsc_u (h1 h2 : Char) (r : List Char) :
    decodeEsc (bslash :: 'u' :: '0' :: '0' :: h1 :: h2 :: r) =
      some (Char.ofNat (16 * hexVal h1 + hexVal h2), r) := rfl

theorem decodeEsc_escapeChar (c : Char) (r : List Char) :
    decodeEsc (escapeChar c ++ r) = some (c, r) := by
  unfold escapeChar
  split_ifs with h1 h2 h3 h4 h5 h6 h7 h8
  · obtain rfl : c = qchar := by simpa using h1
    rfl
  · obtain rfl : c = bslash := by simpa using h2
    rfl
  · obtain rfl : c = Char.ofNat 8 := by simpa using h3
    rfl
  · obtain rfl : c = Char.ofNat 12 := by simpa using h4
    rfl
  · obtain rfl : c = Char.ofNat 10 := by simpa using h5
    rfl
  · obtain rfl : c = Char.ofNat 13 := by simpa using h6
    rfl
  · obtain rfl : c = Char.ofNat 9 := by simpa using h7
    rfl
  · simp only [List.cons_append, List.nil_append]
    rw [decodeEsc_u]
    have hdiv : c.toNat / 16 < 16 := by omega
    have hmod : c.toNat % 16 < 16 := Nat.mod_lt _ (by norm_num)
    rw [hexVal_hexDigit _ hdiv, hexVal_hexDigit _ hmod, Nat.div_add_mod,
      Char.ofNat_toNat]
  · -- plain character, c is not backslash
    have hcb : (c == bslash) = false := by
      simp only [beq_eq_false_iff_ne, ne_eq]
      intro h
      exact h2 (by simp [h])
    simp [decodeEsc, hcb]

theorem escapeList_cons (c : Char) (t : List Char) :
    escapeList (c :: t) = escapeChar c ++ escapeList t := by
  simp [escapeList]

theorem prefixEscapeList : ∀ (s₁ s₂ r₁ r₂ : List Char),
    escapeList s₁ ++ (qchar :: r₁) = escapeList s₂ ++ (qchar :: r₂) →
    s₁ = s₂ ∧ r₁ = r₂
  | [], [], r₁, r₂, h => ⟨rfl, by simpa [escapeList] using h⟩
  | [], c :: s₂, r₁, r₂, h => by
    exfalso
    rw [escapeList_cons, List.append_assoc] at h
    have hd := congrArg decodeEsc h
    rw [decodeEsc_escapeChar] at hd
    have hd0 : decodeEsc (escapeList [] ++ (qchar :: r₁)) = some (qchar, r₁) := rfl
    rw [hd0] at hd
    obtain ⟨hc, hr⟩ := Prod.mk.injEq .. ▸ Option.some.inj hd
    obtain rfl : c = qchar := hc.symm
    have h2 : qchar :: r₁ = escapeChar qchar ++ (escapeList s₂ ++ (qchar :: r₂)) := by
      simpa [escapeList_cons, List.append_assoc] using h
    have h3 : escapeChar qchar = [bslash, qchar] := rfl
    rw [h3] at h2
    have := (List.cons.injEq .. ▸ h2).1
    exact absurd this (by decide)
  | c :: s₁, [], r₁, r₂, h => by
    exfalso
    rw [escapeList_cons, List.append_assoc] at h
    have hd := congrArg decodeEsc h
    rw [decodeEsc_escapeChar] at hd
    have hd0 : decodeEsc (escapeList [] ++ (qchar :: r₂)) = some (qchar, r₂) := rfl
    rw [hd0] at hd
    obtain ⟨hc, hr⟩ := Prod.mk.injEq .. ▸ Option.some.inj hd
    obtain rfl : c = qchar := hc
    have h2 : escapeChar qchar ++ (escapeList s₁ ++ (qchar :: r₁)) = qchar :: r₂ := by
      simpa [escapeList_cons, List.append_assoc] using h
    have h3 : escapeChar qchar = [bslash, qchar] := rfl
    rw [h3] at h2
    have := (List.cons.injEq .. ▸ h2).1
    exact absurd this (by decide)
  | c₁ :: s₁, c₂ :: s₂, r₁, r₂, h => by
    rw [escapeList_cons, escapeList_cons, List.append_assoc, List.append_assoc] at h
    have hd := congrArg decodeEsc h
    rw [decodeEsc_escapeChar, decodeEsc_escapeChar] at hd
    obtain ⟨hc, hr⟩ := Prod.mk.injEq .. ▸ Option.some.inj hd
    obtain ⟨hs, hrr⟩ := prefixEscapeList s₁ s₂ r₁ r₂ hr
    exact ⟨by rw [hc, hs], hrr⟩

theorem prefixQuoteChars (a b : String) (r₁ r₂ : List Char)
    (h : quoteChars a ++ r₁ = quoteChars b ++ r₂) : a = b ∧ r₁ = r₂ := by
  unfold quoteChars at h
  simp only [List.cons_append, List.append_assoc, List.singleton_append] at h
  have ht := (List.cons.injEq .. ▸ h).2
  obtain ⟨hd, hr⟩ := prefixEscapeList a.data b.data r₁ r₂ ht
  exact ⟨String.ext hd, hr⟩

theorem digitVal_digitChar (k : Nat) (h : k < 10) : digitVal (digitChar k) = k := by
  interval_cases k <;> decide

theorem isDigitChar_digitChar (k : Nat) (h : k < 10) :
    isDigitChar (digitChar k) = true := by
  interval_cases k <;> decide

theorem natDigitsAux_digits : ∀ (fuel n : Nat), ∀ c ∈ natDigitsAux fuel n,
    isDigitChar c = true
  | 0, n => by simp [natDigitsAux]
  | fuel + 1, n => by
    intro c hc
    by_cases hn : n = 0
    · simp [natDigitsAux, hn] at hc
    · simp only [natDigitsAux, hn, if_false] at hc
      rcases List.mem_cons.mp hc with rfl | hmem
      · exact isDigitChar_digitChar _ (Nat.mod_lt _ (by norm_num))
      · exact natDigitsAux_digits fuel (n / 10) c hmem

theorem ofDigitsRev_natDigitsAux : ∀ (fuel n : Nat), n ≤ fuel →
    ofDigitsRev (natDigitsAux fuel n) = n
  | 0, n, h => by
    have hn : n = 0 := Nat.le_zero.mp h
    simp [natDigitsAux, hn, ofDigitsRev]
  | fuel + 1, n, h => by
    by_cases hn : n = 0
    · simp [natDigitsAux, hn, ofDigitsRev]
    · have hlt : n / 10 ≤ fuel := by
        have hd : n / 10 < n := Nat.div_lt_self (Nat.pos_of_ne_zero hn) (by norm_num)
        omega
      simp only [natDigitsAux, hn, if_false, ofDigitsRev]
      rw [ofDigitsRev_natDigitsAux fuel (n / 10) hlt,
        digitVal_digitChar _ (Nat.mod_lt _ (by norm_num))]
      exact Nat.mod_add_div n 10

theorem ofDigitsRev_natChars_reverse (n : Nat) :
    ofDigitsRev (natChars n).reverse = n := by
  unfold natChars
  by_cases h : n = 0
  · subst h
    decide
  · rw [if_neg h, List.reverse_reverse]
    exact ofDigitsRev_natDigitsAux n n le_rfl

theorem natChars_inj {n m : Nat} (h : natChars n = natChars m) : n = m := by
  have h2 := congrArg (fun l => ofDigitsRev l.reverse) h
  simp only at h2
  rw [ofDigitsRev_natChars_reverse, ofDigitsRev_natChars_reverse] at h2
  exact h2

theorem natChars_ne_nil (n : Nat) : natChars n ≠ [] := by
  unfold natChars
  by_cases h : n = 0
  · simp [h]
  · rw [if_neg h]
    cases n with
    | zero => exact absurd rfl h
    | succ k => simp [natDigitsAux]

theorem natChars_digits (n : Nat) : ∀ c ∈ natChars n, isDigitChar c = true := by
  unfold natChars
  by_cases h : n = 0
  · intro c hc
    simp [h] at hc
    subst hc
    decide
  · rw [if_neg h]
    intro c hc
    rw [List.mem_reverse] at hc
    exact natDigitsAux_digits n n c hc

theorem takeWhile_dropWhile_append (p : Char → Bool) (l r : List Char)
    (hl : ∀ c ∈ l, p c = true) (hr : ∀ c, r.head? = some c → p c = false) :
    (l ++ r).takeWhile p = l ∧ (l ++ r).dropWhile p = r := by
  induction l with
  | nil =>
    simp only [List.nil_append]
    cases r with
    | nil => simp
    | cons c t =>
      have hc := hr c rfl
      simp [List.takeWhile_cons, List.dropWhile_cons, hc]
  | cons c t ih =>
    have hc := hl c (List.mem_cons_self c t)
    have iht := ih (fun x hx => hl x (List.mem_cons_of_mem _ hx))
    simp [List.takeWhile_cons, List.dropWhile_cons, hc, iht.1, iht.2]

theorem prefixNatChars (a b : Nat) (r₁ r₂ : List Char)
    (h : natChars a ++ r₁ = natChars b ++ r₂)
    (h₁ : headNotDigit r₁) (h₂ : headNotDigit r₂) : a = b ∧ r₁ = r₂ := by
  have e1 := takeWhile_dropWhile_append isDigitChar (natChars a) r₁
    (natChars_digits a) h₁
  have e2 := takeWhile_dropWhile_append isDigitChar (natChars b) r₂
    (natChars_digits b) h₂
  have ht : natChars a = natChars b := by rw [← e1.1, ← e2.1, h]
  have hrr : r₁ = r₂ := by rw [← e1.2, ← e2.2, h]
  exact ⟨natChars_inj ht, hrr⟩

theorem prefixIntChars (n₁ n₂ : Int) (r₁ r₂ : List Char)
    (h : intChars n₁ ++ r₁ = intChars n₂ ++ r₂)
    (h₁ : headNotDigit r₁) (h₂ : headNotDigit r₂) : n₁ = n₂ ∧ r₁ = r₂ := by
  unfold intChars at h
  by_cases hn1 : n₁ < 0 <;> by_cases hn2 : n₂ < 0
  · rw [if_pos hn1, if_pos hn2, List.cons_append, List.cons_append] at h
    have ht := (List.cons.injEq .. ▸ h).2
    obtain ⟨ha, hrr⟩ := prefixNatChars _ _ _ _ ht h₁ h₂
    exact ⟨by omega, hrr⟩
  · rw [if_pos hn1, if_neg hn2, List.cons_append] at h
    obtain ⟨c, t, hct⟩ := List.exists_cons_of_ne_nil (natChars_ne_nil n₂.toNat)
    rw [hct, List.cons_append] at h
    have hcc := (List.cons.injEq .. ▸ h).1
    have hdig : isDigitChar c = true :=
      natChars_digits _ c (by rw [hct]; exact List.mem_cons_self c t)
    rw [← hcc] at hdig
    exact absurd hdig (by decide)
  · rw [if_neg hn1, if_pos hn2, List.cons_append] at h
    obtain ⟨c, t, hct⟩ := List.exists_cons_of_ne_nil (natChars_ne_nil n₁.toNat)
    rw [hct, List.cons_append] at h
    have hcc := (List.cons.injEq .. ▸ h).1
    have hdig : isDigitChar c = true :=
      natChars_digits _ c (by rw [hct]; exact List.mem_cons_self c t)
    rw [hcc] at hdig
    exact absurd hdig (by decide)
  · rw [if_neg hn1, if_neg hn2] at h
    obtain ⟨ha, hrr⟩ := prefixNatChars _ _ _ _ h h₁ h₂
    exact ⟨by omega, hrr⟩

theorem charTag_digit (c : Char) (h : isDigitChar c = true) : charTag c = 6 := by
  unfold charTag
  split_ifs with a1 a2 a3 a4 a5 a6 a7
  · exact absurd h (by subst a1; decide)
  · exact absurd h (by subst a2; decide)
  · exact absurd h (by subst a3; decide)
  · exact absurd h (by subst a4; decide)
  · exact absurd h (by subst a5; decide)
  · exact absurd h (by subst a6; decide)
  · rfl
  · exact absurd (Or.inr h) a7

theorem jsonTag_ne_seven (v : Json) : jsonTag v ≠ 7 := by
  cases v <;> simp [jsonTag]

theorem stringifyJson_head (v : Json) :
    ∃ c t, stringifyJson v = c :: t ∧ charTag c = jsonTag v := by
  cases v with
  | null => exact ⟨'n', _, rfl, by decide⟩
  | bool b =>
    cases b with
    | true => exact ⟨'t', _, rfl, by decide⟩
    | false => exact ⟨'f', _, rfl, by decide⟩
  | num n =>
    by_cases hn : n < 0
    · refine ⟨'-', natChars n.natAbs, ?_, rfl⟩
      show intChars n = _
      unfold intChars
      rw [if_pos hn]
    · obtain ⟨c, t, hct⟩ := List.exists_cons_of_ne_nil (natChars_ne_nil n.toNat)
      refine ⟨c, t, ?_, ?_⟩
      · show intChars n = _
        unfold intChars
        rw [if_neg hn, hct]
      · have hdig : isDigitChar c = true :=
          natChars_digits _ c (by rw [hct]; exact List.mem_cons_self c t)
        rw [charTag_digit c hdig]
        rfl
  | str s => exact ⟨qchar, _, rfl, rfl⟩
  | arr xs => exact ⟨'[', _, rfl, rfl⟩
  | obj fs => exact ⟨obrace, _, rfl, rfl⟩

theorem headNotDigit_cons (c : Char) (r : List Char) (h : isDigitChar c = false) :
    headNotDigit (c :: r) := by
  intro d hd
  obtain rfl := Option.some.inj hd
  exact h

theorem headNotDigit_sepArr (l : JsonList) (cl : Char) (r : List Char)
    (hcl : isDigitChar cl = false) :
    headNotDigit (stringifySepArr l ++ (cl :: r)) := by
  cases l with
  | nil => simpa [stringifySepArr] using headNotDigit_cons cl r hcl
  | cons x tl =>
    have hshape : stringifySepArr (JsonList.cons x tl) ++ (cl :: r) =
        ',' :: ((stringifyJson x ++ stringifySepArr tl) ++ (cl :: r)) := by
      simp [stringifySepArr]
    rw [hshape]
    exact headNotDigit_cons ',' _ (by decide)

theorem headNotDigit_sepObj (l : JsonFields) (cl : Char) (r : List Char)
    (hcl : isDigitChar cl = false) :
    headNotDigit (stringifySepObj l ++ (cl :: r)) := by
  cases l with
  | nil => simpa [stringifySepObj] using headNotDigit_cons cl r hcl
  | cons k v tl =>
    have hshape : stringifySepObj (JsonFields.cons k v tl) ++ (cl :: r) =
        ',' :: ((quoteChars k ++ (':' :: stringifyJson v ++ stringifySepObj tl)) ++
          (cl :: r)) := by
      simp [stringifySepObj]
    rw [hshape]
    exact headNotDigit_cons ',' _ (by decide)

mutual

theorem prefixJson (v w : Json) (r₁ r₂ : List Char)
    (h₁ : headNotDigit r₁) (h₂ : headNotDigit r₂)
    (heq : stringifyJson v ++ r₁ = stringifyJson w ++ r₂) : v = w ∧ r₁ = r₂ := by
  have htag : jsonTag v = jsonTag w := by
    obtain ⟨c₁, t₁, hv, hc₁⟩ := stringifyJson_head v
    obtain ⟨c₂, t₂, hw, hc₂⟩ := stringifyJson_head w
    have heq2 := heq
    rw [hv, hw, List.cons_append, List.cons_append] at heq2
    have hcc := (List.cons.injEq .. ▸ heq2).1
    rw [← hc₁, ← hc₂, hcc]
  cases v with
  | null =>
    cases w with
    | null =>
      refine ⟨rfl, ?_⟩
      have heq' : ['n', 'u', 'l', 'l'] ++ r₁ = ['n', 'u', 'l', 'l'] ++ r₂ := heq
      exact List.append_cancel_left heq'
    | bool b => simp [jsonTag] at htag
    | num n => simp [jsonTag] at htag
    | str s => simp [jsonTag] at htag
    | arr xs => simp [jsonTag] at htag
    | obj fs => simp [jsonTag] at htag
  | bool b =>
    cases w with
    | null => simp [jsonTag] at htag
    | bool b2 =>
      cases b with
      | true =>
        cases b2 with
        | true =>
          refine ⟨rfl, ?_⟩
          have heq' : ['t', 'r', 'u', 'e'] ++ r₁ = ['t', 'r', 'u', 'e'] ++ r₂ := heq
          exact List.append_cancel_left heq'
        | false =>
          have heq' : 't' :: (['r', 'u', 'e'] ++ r₁) =
              'f' :: (['a', 'l', 's', 'e'] ++ r₂) := heq
          have hcc := (List.cons.injEq .. ▸ heq').1
          exact absurd hcc (by decide)
      | false =>
        cases b2 with
        | true =>
          have heq' : 'f' :: (['a', 'l', 's', 'e'] ++ r₁) =
              't' :: (['r', 'u', 'e'] ++ r₂) := heq
          have hcc := (List.cons.injEq .. ▸ heq').1
          exact absurd hcc (by decide)
        | false =>
          refine ⟨rfl, ?_⟩
          have heq' : ['f', 'a', 'l', 's', 'e'] ++ r₁ =
              ['f', 'a', 'l', 's', 'e'] ++ r₂ := heq
          exact List.append_cancel_left heq'
    | num n => simp [jsonTag] at htag
    | str s => simp [jsonTag] at htag
    | arr xs => simp [jsonTag] at htag
    | obj fs => simp [jsonTag] at htag
  | num n =>
    cases w with
    | null => simp [jsonTag] at htag
    | bool b => simp [jsonTag] at htag
    | num n2 =>
      have heq' : intChars n ++ r₁ = intChars n2 ++ r₂ := heq
      obtain ⟨hn, hrr⟩ := prefixIntChars _ _ _ _ heq' h₁ h₂
      exact ⟨by rw [hn], hrr⟩
    | str s => simp [jsonTag] at htag
    | arr xs => simp [jsonTag] at htag
    | obj fs => simp [jsonTag] at htag
  | str s =>
    cases w with
    | null => simp [jsonTag] at htag
    | bool b => simp [jsonTag] at htag
    | num n => simp [jsonTag] at htag
    | str s2 =>
      have heq' : quoteChars s ++ r₁ = quoteChars s2 ++ r₂ := heq
      obtain ⟨hs, hrr⟩ := prefixQuoteChars _ _ _ _ heq'
      exact ⟨by rw [hs], hrr⟩
    | arr xs => simp [jsonTag] at htag
    | obj fs => simp [jsonTag] at htag
  | arr xs =>
    cases w with
    | null => simp [jsonTag] at htag
    | bool b => simp [jsonTag] at htag
    | num n => simp [jsonTag] at htag
    | str s => simp [jsonTag] at htag
    | arr ys =>
      have heq' : '[' :: ((stringifyArr xs ++ [']']) ++ r₁) =
          '[' :: ((stringifyArr ys ++ [']']) ++ r₂) := heq
      have ht := (List.cons.injEq .. ▸ heq').2
      rw [List.append_assoc, List.append_assoc, List.singleton_append,
        List.singleton_append] at ht
      obtain ⟨hx, hrr⟩ := prefixArr xs ys r₁ r₂ ht
      exact ⟨by rw [hx], hrr⟩
    | obj fs => simp [jsonTag] at htag
  | obj fs =>
    cases w with
    | null => simp [jsonTag] at htag
    | bool b => simp [jsonTag] at htag
    | num n => simp [jsonTag] at htag
    | str s => simp [jsonTag] at htag
    | arr xs => simp [jsonTag] at htag
    | obj gs =>
      have heq' : obrace :: ((stringifyObj fs ++ [cbrace]) ++ r₁) =
          obrace :: ((stringifyObj gs ++ [cbrace]) ++ r₂) := heq
      have ht := (List.cons.injEq .. ▸ heq').2
      rw [List.append_assoc, List.append_assoc, List.singleton_append,
        List.singleton_append] at ht
      obtain ⟨hx, hrr⟩ := prefixFields fs gs r₁ r₂ ht
      exact ⟨by rw [hx], hrr⟩

theorem prefixArr (xs ys : JsonList) (r₁ r₂ : List Char)
    (heq : stringifyArr xs ++ (']' :: r₁) = stringifyArr ys ++ (']' :: r₂)) :
    xs = ys ∧ r₁ = r₂ := by
  cases xs with
  | nil =>
    cases ys with
    | nil =>
      refine ⟨rfl, ?_⟩
      have heq' : ']' :: r₁ = ']' :: r₂ := heq
      exact (List.cons.injEq .. ▸ heq').2
    | cons y tl =>
      exfalso
      obtain ⟨c, t, hy, hcy⟩ := stringifyJson_head y
      have heq' : ']' :: r₁ = stringifyJson y ++ (stringifySepArr tl ++ (']' :: r₂)) := by
        have hx := heq
        simp only [stringifyArr, List.nil_append, List.append_assoc] at hx
        exact hx
      rw [hy, List.cons_append] at heq'
      have hcc := (List.cons.injEq .. ▸ heq').1
      rw [← hcc] at hcy
      have h7 : charTag ']' = 7 := rfl
      exact jsonTag_ne_seven y (hcy.symm.trans h7)
  | cons x tl =>
    cases ys with
    | nil =>
      exfalso
      obtain ⟨c, t, hx2, hcx⟩ := stringifyJson_head x
      have heq' : stringifyJson x ++ (stringifySepArr tl ++ (']' :: r₁)) = ']' :: r₂ := by
        have hx := heq
        simp only [stringifyArr, List.nil_append, List.append_assoc] at hx
        exact hx
      rw [hx2, List.cons_append] at heq'
      have hcc := (List.cons.injEq .. ▸ heq').1
      rw [hcc] at hcx
      have h7 : charTag ']' = 7 := rfl
      exact jsonTag_ne_seven x (hcx.symm.trans h7)
    | cons y tl₂ =>
      have heq' : stringifyJson x ++ (stringifySepArr tl ++ (']' :: r₁)) =
          stringifyJson y ++ (stringifySepArr tl₂ ++ (']' :: r₂)) := by
        have hx := heq
        simp only [stringifyArr, List.append_assoc] at hx
        exact hx
      obtain ⟨hxy, hrest⟩ := prefixJson x y _ _
        (headNotDigit_sepArr tl ']' r₁ (by decide))
        (headNotDigit_sepArr tl₂ ']' r₂ (by decide)) heq'
      cases tl with
      | nil =>
        cases tl₂ with
        | nil =>
          refine ⟨by rw [hxy], ?_⟩
          have hr2 : ']' :: r₁ = ']' :: r₂ := hrest
          exact (List.cons.injEq .. ▸ hr2).2
        | cons z tz =>
          exfalso
          have hr2 : ']' :: r₁ =
              ',' :: ((stringifyJson z ++ stringifySepArr tz) ++ (']' :: r₂)) := by
            have hx := hrest
            simp only [stringifySepArr, List.nil_append, List.append_assoc] at hx
            exact hx
          have hcc := (List.cons.injEq .. ▸ hr2).1
          exact absurd hcc (by decide)
      | cons z tz =>
        cases tl₂ with
        | nil =>
          exfalso
          have hr2 : ',' :: ((stringifyJson z ++ stringifySepArr tz) ++ (']' :: r₁)) =
              ']' :: r₂ := by
            have hx := hrest
            simp only [stringifySepArr, List.nil_append, List.append_assoc] at hx
            exact hx
          have hcc := (List.cons.injEq .. ▸ hr2).1
          exact absurd hcc (by decide)
        | cons z2 tz2 =>
          have hr2 : ',' :: (stringifyArr (JsonList.cons z tz) ++ (']' :: r₁)) =
              ',' :: (stringifyArr (JsonList.cons z2 tz2) ++ (']' :: r₂)) := by
            have hx := hrest
            simp only [stringifySepArr, stringifyArr, List.cons_append,
              List.append_assoc] at hx ⊢
            exact hx
          have htl := (List.cons.injEq .. ▸ hr2).2
          obtain ⟨htt, hrr⟩ := prefixArr (JsonList.cons z tz) (JsonList.cons z2 tz2)
            r₁ r₂ htl
          exact ⟨by rw [hxy, htt], hrr⟩

theorem prefixFields (fs gs : JsonFields) (r₁ r₂ : List Char)
    (heq : stringifyObj fs ++ (cbrace :: r₁) = stringifyObj gs ++ (cbrace :: r₂)) :
    fs = gs ∧ r₁ = r₂ := by
  cases fs with
  | nil =>
    cases gs with
    | nil =>
      refine ⟨rfl, ?_⟩
      have heq' : cbrace :: r₁ = cbrace :: r₂ := heq
      exact (List.cons.injEq .. ▸ heq').2
    | cons k v tl =>
      exfalso
      have hx := heq
      simp only [stringifyObj, quoteChars, List.nil_append, List.cons_append,
        List.append_assoc] at hx
      have hcc := (List.cons.injEq .. ▸ hx).1
      exact absurd hcc (by decide)
  | cons k v tl =>
    cases gs with
    | nil =>
      exfalso
      have hx := heq
      simp only [stringifyObj, quoteChars, List.nil_append, List.cons_append,
        List.append_assoc] at hx
      have hcc := (List.cons.injEq .. ▸ hx).1
      exact absurd hcc (by decide)
    | cons k2 v2 tl₂ =>
      have hx := heq
      simp only [stringifyObj, List.append_assoc] at hx
      obtain ⟨hk, hcol⟩ := prefixQuoteChars _ _ _ _ hx
      have hval := (List.cons.injEq .. ▸ hcol).2
      obtain ⟨hv, hrest⟩ := prefixJson v v2 _ _
        (headNotDigit_sepObj tl cbrace r₁ (by decide))
        (headNotDigit_sepObj tl₂ cbrace r₂ (by decide)) hval
      cases tl with
      | nil =>
        cases tl₂ with
        | nil =>
          refine ⟨by rw [hk, hv], ?_⟩
          have hr2 : cbrace :: r₁ = cbrace :: r₂ := hrest
          exact (List.cons.injEq .. ▸ hr2).2
        | cons k3 v3 tz =>
          exfalso
          have hr2 : cbrace :: r₁ = ',' ::
              ((quoteChars k3 ++ (':' :: stringifyJson v3 ++ stringifySepObj tz)) ++
                (cbrace :: r₂)) := by
            have hx := hrest
            simp only [stringifySepObj, List.nil_append, List.append_assoc] at hx
            exact hx
          have hcc := (List.cons.injEq .. ▸ hr2).1
          exact absurd hcc (by decide)
      | cons k3 v3 tz =>
        cases tl₂ with
        | nil =>
          exfalso
          have hr2 : ',' ::
              ((quoteChars k3 ++ (':' :: stringifyJson v3 ++ stringifySepObj tz)) ++
                (cbrace :: r₁)) = cbrace :: r₂ := by
            have hx := hrest
            simp only [stringifySepObj, List.nil_append, List.append_assoc] at hx
            exact hx
          have hcc := (List.cons.injEq .. ▸ hr2).1
          exact absurd hcc (by decide)
        | cons k4 v4 tz2 =>
          have hr2 : ',' :: (stringifyObj (JsonFields.cons k3 v3 tz) ++ (cbrace :: r₁)) =
              ',' :: (stringifyObj (JsonFields.cons k4 v4 tz2) ++ (cbrace :: r₂)) := by
            have hx := hrest
            simp only [stringifySepObj, stringifyObj, List.cons_append,
              List.append_assoc] at hx ⊢
            exact hx
          have htl := (List.cons.injEq .. ▸ hr2).2
          obtain ⟨htt, hrr⟩ := prefixFields (JsonFields.cons k3 v3 tz)
            (JsonFields.cons k4 v4 tz2) r₁ r₂ htl
          exact ⟨by rw [hk, hv, htt], hrr⟩

end

/-- C7 amended: two acquisitions produce the same cache key exactly when
their query function names are equal and their argument values are equal
as ordered JSON (same object key insertion order); in particular
different function names or different ordered argument values always
produce different keys. -/
theorem cacheKey_inj (f g : String) (a b : Json) :
    cacheKey f a = cacheKey g b ↔ (f = g ∧ a = b) := by
  constructor
  · intro h
    have h2 : stringifyJson
        (.obj (.cons "functionName" (.str f) (.cons "args" a .nil))) ++
          ([] : List Char) =
        stringifyJson
          (.obj (.cons "functionName" (.str g) (.cons "args" b .nil))) ++ [] := by
      rw [List.append_nil, List.append_nil]
      exact h
    have hnd : headNotDigit ([] : List Char) := by
      intro c hc
      simp at hc
    obtain ⟨hobj, _⟩ := prefixJson _ _ [] [] hnd hnd h2
    injection hobj with hfields
    injection hfields with hk1 hv1 hrest
    injection hv1 with hf
    injection hrest with hk2 hv2 htail
    exact ⟨hf, hv2⟩
  · rintro ⟨rfl, rfl⟩
    rfl

/-- C7 counterexample: two argument objects that are structurally equal
(the same fields after canonical key-sorted encoding) but with opposite
key insertion order produce different cache keys, so the claim as
stated — same key regardless of object key insertion order — is false. -/
theorem cacheKey_keyOrder_counterexample :
    specStructEq (Json.obj (.cons "a" (.num 1) (.cons "b" (.num 2) .nil)))
        (Json.obj (.cons "b" (.num 2) (.cons "a" (.num 1) .nil))) ∧
    cacheKey "f1" (Json.obj (.cons "a" (.num 1) (.cons "b" (.num 2) .nil))) ≠
      cacheKey "f1" (Json.obj (.cons "b" (.num 2) (.cons "a" (.num 1) .nil))) :=
  ⟨rfl, by decide⟩

end AnswerOverflow
